import Mathlib

/-!
Verification of the serial-number library (src/lib.rs): a shallow embedding of
its data model, key derivation, checksum and the two textual codecs, followed
by theorems settling the specified properties.

Modelling conventions: machine integers are Nat / Int with explicit bounds
(i64 values are Int carrying range hypotheses where needed, u8 / u16 values
are Nat), text is List Char, and fallible Rust functions return Except.
The unwrap call in Key parsing is modelled by an Option layer where the
value none stands for a runtime abort.
-/

/-- The four ParseIntError kinds std integer parsing can report. -/
inductive ParseIntError where
  | empty
  | invalidDigit
  | posOverflow
  | negOverflow
deriving DecidableEq

/-- The library error enum from src/lib.rs. -/
inductive LibError where
  | notEnoughItems
  | invalidFragment
  | invalidFormat (e : ParseIntError)
  | invalidInt
deriving DecidableEq

/-- A left/right pair, generic over its payload, as in src/lib.rs. -/
structure Pair (α : Type) where
  left : α
  right : α
deriving DecidableEq

/-- A parameter triplet of bytes. -/
structure Block where
  a : Nat
  b : Nat
  c : Nat
deriving DecidableEq

/-- The vendor secret: an ordered list of block pairs. -/
structure Secret where
  pairs : List (Pair Block)
deriving DecidableEq

/-- A key: seed, derived byte pairs, and the checksum pair. -/
structure Key where
  seed : Int
  pairs : List (Pair Nat)
  checksum : Pair Nat
deriving DecidableEq

instance {ε α : Type} [DecidableEq ε] [DecidableEq α] : DecidableEq (Except ε α) :=
  fun a b =>
    match a, b with
    | .ok x, .ok y =>
      if h : x = y then isTrue (by rw [h])
      else isFalse (by intro hh; injection hh; exact h (by assumption))
    | .error x, .error y =>
      if h : x = y then isTrue (by rw [h])
      else isFalse (by intro hh; injection hh; exact h (by assumption))
    | .ok _, .error _ => isFalse (fun h => Except.noConfusion h)
    | .error _, .ok _ => isFalse (fun h => Except.noConfusion h)

/-- Arithmetic (sign-propagating) right shift, as the Rust shr on i64. -/
def asr (x : Int) (n : Nat) : Int :=
  match x with
  | .ofNat m => .ofNat (m >>> n)
  | .negSucc m => .negSucc (m >>> n)

/-- The i64 to u8 TryInto conversion: succeeds exactly on 0..=255. -/
def toU8 (x : Int) : Except LibError Nat :=
  if 0 ≤ x ∧ x ≤ 255 then .ok x.toNat else .error .invalidInt

/-- The u16 to u8 TryInto conversion: succeeds exactly on 0..=255. -/
def u16ToU8 (x : Nat) : Except LibError Nat :=
  if x ≤ 255 then .ok x else .error .invalidInt

/-- Value of a hex digit character, upper or lower case, as char::to_digit(16). -/
def hexDigit? (c : Char) : Option Nat :=
  if '0' ≤ c ∧ c ≤ '9' then some (c.toNat - 48)
  else if 'a' ≤ c ∧ c ≤ 'f' then some (c.toNat - 87)
  else if 'A' ≤ c ∧ c ≤ 'F' then some (c.toNat - 55)
  else none

/-- Digit value with default zero, used to state read-back values. -/
def dVal (c : Char) : Nat := (hexDigit? c).getD 0

/-- Hex read-back: fold the digits of a string onto an accumulator. -/
def hexValFrom (acc : Nat) (cs : List Char) : Nat :=
  cs.foldl (fun a c => a * 16 + dVal c) acc

/-- The digit loop of from_str_radix(16): reject a non-digit at once, and
report the overflow kind ovf as soon as the accumulator would pass max. -/
def fromHexLoop (ovf : ParseIntError) (max : Nat) (acc : Nat) :
    List Char → Except ParseIntError Nat
  | [] => .ok acc
  | c :: rest =>
    match hexDigit? c with
    | none => .error .invalidDigit
    | some d =>
      if acc * 16 + d > max then .error ovf
      else fromHexLoop ovf max (acc * 16 + d) rest

/-- u8::from_str_radix(s, 16): an optional leading plus sign then hex digits,
bounded by 255. -/
def u8FromHex (cs : List Char) : Except ParseIntError Nat :=
  match cs with
  | [] => .error .empty
  | c :: rest =>
    if c = '+' ∨ c = '-' then
      if rest.isEmpty then .error .invalidDigit
      else if c = '+' then fromHexLoop .posOverflow 255 0 rest
      else .error .invalidDigit
    else fromHexLoop .posOverflow 255 0 cs

/-- i64::from_str_radix(s, 16): an optional sign then hex digits, bounded by
the i64 range on either side. -/
def i64FromHex (cs : List Char) : Except ParseIntError Int :=
  match cs with
  | [] => .error .empty
  | c :: rest =>
    if c = '+' ∨ c = '-' then
      if rest.isEmpty then .error .invalidDigit
      else if c = '+' then (fromHexLoop .posOverflow (2 ^ 63 - 1) 0 rest).map Int.ofNat
      else (fromHexLoop .negOverflow (2 ^ 63) 0 rest).map (fun m => -(m : Int))
    else (fromHexLoop .posOverflow (2 ^ 63 - 1) 0 cs).map Int.ofNat

/-- Uppercase hex digit character for a value below 16. -/
def hexChar (d : Nat) : Char :=
  if d < 10 then Char.ofNat (48 + d) else Char.ofNat (55 + d)

/-- Two-digit uppercase hex of a byte, as the 02X format. -/
def byteHex (n : Nat) : List Char :=
  [hexChar (n / 16 % 16), hexChar (n % 16)]

/-- Fueled big-endian digit expansion of a Nat in base 16, empty on zero. -/
def natHexAux : Nat → Nat → List Char
  | 0, _ => []
  | fuel + 1, n => if n = 0 then [] else natHexAux fuel (n / 16) ++ [hexChar (n % 16)]

/-- Minimal-width uppercase hex digits of a Nat below 2 to the 64. -/
def natHex (n : Nat) : List Char :=
  if n = 0 then ['0'] else natHexAux 16 n

/-- The 04X rendering of an i64 seed: the two's-complement value in uppercase
hex, zero-padded on the left to at least four digits. -/
def seedHex (seed : Int) : List Char :=
  List.replicate (4 - (natHex ((seed.emod (2 ^ 64)).toNat)).length) '0' ++
    natHex ((seed.emod (2 ^ 64)).toNat)

/-- Split a character list on the dash separator, as str::split("-"). -/
def splitDash : List Char → List (List Char)
  | [] => [[]]
  | c :: rest =>
    if c = '-' then [] :: splitDash rest
    else
      match splitDash rest with
      | [] => [[c]]
      | f :: fs => (c :: f) :: fs

/-- Join fragments with dashes, as the first-flag Display loop of Secret. -/
def joinDash : List (List Char) → List Char
  | [] => []
  | [f] => f
  | f :: g :: rest => f ++ ('-' :: joinDash (g :: rest))

/-- Render each fragment with a leading dash, as the Display loop of Key. -/
def dashed : List (List Char) → List Char
  | [] => []
  | f :: rest => ('-' :: f) ++ dashed rest

/-- Two-character slice of a fragment starting at index i. -/
def sub2 (cs : List Char) (i : Nat) : List Char := (cs.drop i).take 2

/-- Wrap an integer-parsing failure into the library error, as the From
conversion behind the question-mark operator. -/
def wrapPIE : Except ParseIntError Nat → Except LibError Nat
  | .ok v => .ok v
  | .error e => .error (.invalidFormat e)

/-- Block::produce from src/lib.rs: two fallibly narrowed shifted copies of
the seed, an or/and mix keyed on the parity of the a parameter, then xor. -/
def Block.produce (bl : Block) (seed : Int) : Except LibError Nat :=
  match toU8 (asr seed (bl.a % 25)) with
  | .error e => .error e
  | .ok a =>
    match toU8 (asr seed (bl.b % 3)) with
    | .error e => .error e
    | .ok b => .ok (a ^^^ (if bl.a % 2 = 0 then b ||| bl.c else b &&& bl.c))

/-- The derivation primitive as the specification words it: truncation to the
low-order byte of each arithmetically shifted copy of the seed, total in all
of a, b, c and the seed. Written from the spec text, for comparison with
Block.produce. -/
def Block.produceSpec (bl : Block) (seed : Int) : Nat :=
  ((asr seed (bl.a % 25)).emod 256).toNat ^^^
    (if bl.a % 2 = 0 then ((asr seed (bl.b % 3)).emod 256).toNat ||| bl.c
     else ((asr seed (bl.b % 3)).emod 256).toNat &&& bl.c)

/-- Pair of blocks producing a pair of bytes, left then right. -/
def Pair.produce (p : Pair Block) (seed : Int) : Except LibError (Pair Nat) :=
  match p.left.produce seed with
  | .error e => .error e
  | .ok l =>
    match p.right.produce seed with
    | .error e => .error e
    | .ok r => .ok ⟨l, r⟩

/-- Sequential derivation of every pair, stopping at the first error, as the
collect over the iterator of pairs. -/
def producePairs (gs : List (Pair Block)) (seed : Int) :
    Except LibError (List (Pair Nat)) :=
  match gs with
  | [] => .ok []
  | g :: rest =>
    match g.produce seed with
    | .error e => .error e
    | .ok p =>
      match producePairs rest seed with
      | .error e => .error e
      | .ok ps => .ok (p :: ps)

/-- One accumulator update of the checksum loop: add within u16, then take
away 255 once if the sum passed 255. -/
def accAdd (acc byte : Nat) : Nat :=
  if (acc + byte) % 65536 > 255 then (acc + byte) % 65536 - 255
  else (acc + byte) % 65536

/-- One byte step of the checksum: update right with the byte, then left
with the new right. -/
def csStep (st : Nat × Nat) (byte : Nat) : Nat × Nat :=
  (accAdd st.1 (accAdd st.2 byte), accAdd st.2 byte)

/-- The eight big-endian bytes of the two's-complement i64 seed. -/
def seedBeBytes (seed : Int) : List Nat :=
  let u := (seed.emod (2 ^ 64)).toNat
  [u / 2 ^ 56 % 256, u / 2 ^ 48 % 256, u / 2 ^ 40 % 256, u / 2 ^ 32 % 256,
   u / 2 ^ 24 % 256, u / 2 ^ 16 % 256, u / 2 ^ 8 % 256, u % 256]

/-- The byte stream of the derived pairs: left byte then right byte of each. -/
def pairBytes : List (Pair Nat) → List Nat
  | [] => []
  | p :: rest => p.left :: p.right :: pairBytes rest

/-- The two checksum accumulators after the whole loop: seed bytes first,
then every pair's bytes, starting from 0x56 and 0xAF. -/
def csFold (seed : Int) (pairs : List (Pair Nat)) : Nat × Nat :=
  (seedBeBytes seed ++ pairBytes pairs).foldl csStep (0x56, 0xAF)

/-- The checksum function from src/lib.rs, final accumulators narrowed
fallibly back to bytes, left first. -/
def checksum (seed : Int) (pairs : List (Pair Nat)) : Except LibError (Pair Nat) :=
  match u16ToU8 (csFold seed pairs).1 with
  | .error e => .error e
  | .ok l =>
    match u16ToU8 (csFold seed pairs).2 with
    | .error e => .error e
    | .ok r => .ok ⟨l, r⟩

/-- Key::create: derive every pair from the secret, then the checksum. -/
def createKey (seed : Int) (secret : Secret) : Except LibError Key :=
  match producePairs secret.pairs seed with
  | .error e => .error e
  | .ok pairs =>
    match checksum seed pairs with
    | .error e => .error e
    | .ok chk => .ok ⟨seed, pairs, chk⟩

/-- Key::create under its source name. -/
def Key.create (seed : Int) (secret : Secret) : Except LibError Key :=
  createKey seed secret

/-- Key::valid: re-derive for the key's own seed and compare structurally,
collapsing a derivation failure to false. -/
def Key.valid (k : Key) (secret : Secret) : Bool :=
  match Key.create k.seed secret with
  | .ok k2 => decide (k = k2)
  | .error _ => false

/-- Parse one 12-character secret fragment into a pair of blocks. -/
def parseBlockFrag (frag : List Char) : Except LibError (Pair Block) :=
  if frag.length = 12 then
    match wrapPIE (u8FromHex (sub2 frag 0)) with
    | .error e => .error e
    | .ok la =>
      match wrapPIE (u8FromHex (sub2 frag 2)) with
      | .error e => .error e
      | .ok lb =>
        match wrapPIE (u8FromHex (sub2 frag 4)) with
        | .error e => .error e
        | .ok lc =>
          match wrapPIE (u8FromHex (sub2 frag 6)) with
          | .error e => .error e
          | .ok ra =>
            match wrapPIE (u8FromHex (sub2 frag 8)) with
            | .error e => .error e
            | .ok rb =>
              match wrapPIE (u8FromHex (sub2 frag 10)) with
              | .error e => .error e
              | .ok rc => .ok ⟨⟨la, lb, lc⟩, ⟨ra, rb, rc⟩⟩
  else .error .invalidFragment

/-- Parse every secret fragment in order, stopping at the first error. -/
def parseBlockFrags : List (List Char) → Except LibError (List (Pair Block))
  | [] => .ok []
  | f :: rest =>
    match parseBlockFrag f with
    | .error e => .error e
    | .ok p =>
      match parseBlockFrags rest with
      | .error e => .error e
      | .ok ps => .ok (p :: ps)

/-- Secret::from_str: split on dashes and parse every fragment. -/
def Secret.fromStr (cs : List Char) : Except LibError Secret :=
  match parseBlockFrags (splitDash cs) with
  | .error e => .error e
  | .ok ps => .ok ⟨ps⟩

/-- Secret Display: fragments of six byte digits joined by dashes. -/
def blockHex (bl : Block) : List Char :=
  byteHex bl.a ++ byteHex bl.b ++ byteHex bl.c

/-- One secret fragment: left block then right block. -/
def pairBlockHex (p : Pair Block) : List Char :=
  blockHex p.left ++ blockHex p.right

/-- Secret Display from src/lib.rs. -/
def Secret.format (s : Secret) : List Char :=
  joinDash (s.pairs.map pairBlockHex)

/-- One key fragment: two bytes as four uppercase hex digits. -/
def pairHex (p : Pair Nat) : List Char :=
  byteHex p.left ++ byteHex p.right

/-- Key Display: the 04X seed, every pair prefixed by a dash, then the
checksum prefixed by a dash. -/
def Key.format (k : Key) : List Char :=
  seedHex k.seed ++ dashed (k.pairs.map pairHex) ++ ('-' :: pairHex k.checksum)

/-- Parse one 4-character key fragment into a byte pair. -/
def parsePairFrag (frag : List Char) : Except LibError (Pair Nat) :=
  if frag.length = 4 then
    match wrapPIE (u8FromHex (sub2 frag 0)) with
    | .error e => .error e
    | .ok l =>
      match wrapPIE (u8FromHex (sub2 frag 2)) with
      | .error e => .error e
      | .ok r => .ok ⟨l, r⟩
  else .error .invalidFragment

/-- Parse every key fragment in order, stopping at the first error. -/
def parsePairFrags : List (List Char) → Except LibError (List (Pair Nat))
  | [] => .ok []
  | f :: rest =>
    match parsePairFrag f with
    | .error e => .error e
    | .ok p =>
      match parsePairFrags rest with
      | .error e => .error e
      | .ok ps => .ok (p :: ps)

/-- Key::from_str: at least three dash-separated items, a signed hex seed,
4-digit fragments, and the popped last pair as checksum. The outer Option
models the unwrap on pop: none stands for a runtime abort. -/
def Key.fromStr (cs : List Char) : Option (Except LibError Key) :=
  let items := splitDash cs
  if items.length < 3 then some (.error .notEnoughItems)
  else
    match items with
    | [] => some (.error .notEnoughItems)
    | seedItem :: tail =>
      match i64FromHex seedItem with
      | .error e => some (.error (.invalidFormat e))
      | .ok seed =>
        match parsePairFrags tail with
        | .error e => some (.error e)
        | .ok ps =>
          match ps.getLast? with
          | none => none
          | some chk => some (.ok ⟨seed, ps.dropLast, chk⟩)

/-- First problem of one key fragment, as the specification describes it:
a wrong length, else the first of its two halves that is not a byte
numeral. Written from the spec text, for comparison with Key.fromStr. -/
def fragError (frag : List Char) : Option LibError :=
  if frag.length ≠ 4 then some .invalidFragment
  else
    match u8FromHex (sub2 frag 0) with
    | .error e => some (.invalidFormat e)
    | .ok _ =>
      match u8FromHex (sub2 frag 2) with
      | .error e => some (.invalidFormat e)
      | .ok _ => none

/-- First problem over a list of key fragments, scanned left to right. -/
def firstPairError : List (List Char) → Option LibError
  | [] => none
  | f :: rest =>
    match fragError f with
    | some e => some e
    | none => firstPairError rest

/-- The byte pair a well-formed key fragment denotes. -/
def pairOfFrag (frag : List Char) : Pair Nat :=
  ⟨(u8FromHex (sub2 frag 0)).toOption.getD 0,
   (u8FromHex (sub2 frag 2)).toOption.getD 0⟩

/-- Key parsing as the specification words it: split on dashes, demand at
least three items, read the signed hex seed, locate the first offending
fragment if any, otherwise map the fragments to pairs and take the last as
checksum. Written from the spec text, for comparison with Key.fromStr. -/
def keySpecParse (cs : List Char) : Option (Except LibError Key) :=
  let items := splitDash cs
  if items.length < 3 then some (.error .notEnoughItems)
  else
    match items with
    | [] => some (.error .notEnoughItems)
    | seedItem :: tail =>
      match i64FromHex seedItem with
      | .error e => some (.error (.invalidFormat e))
      | .ok seed =>
        match firstPairError tail with
        | some e => some (.error e)
        | none =>
          let ps := tail.map pairOfFrag
          match ps.getLast? with
          | none => none
          | some chk => some (.ok ⟨seed, ps.dropLast, chk⟩)

/-- A block whose three parameters are bytes. -/
def BlockWF (bl : Block) : Prop := bl.a ≤ 255 ∧ bl.b ≤ 255 ∧ bl.c ≤ 255

/-- A secret all of whose block parameters are bytes. -/
def SecretWF (s : Secret) : Prop :=
  ∀ p ∈ s.pairs, BlockWF p.left ∧ BlockWF p.right

/-- A byte pair whose two components are bytes. -/
def PairWF (p : Pair Nat) : Prop := p.left ≤ 255 ∧ p.right ≤ 255

/-- A key all of whose derived values and checksum halves are bytes. -/
def KeyWF (k : Key) : Prop :=
  (∀ p ∈ k.pairs, PairWF p) ∧ PairWF k.checksum

instance : DecidablePred BlockWF := fun bl => by unfold BlockWF; infer_instance

instance : DecidablePred PairWF := fun p => by unfold PairWF; infer_instance

instance (s : Secret) : Decidable (SecretWF s) := by unfold SecretWF; infer_instance

instance (k : Key) : Decidable (KeyWF k) := by unfold KeyWF; infer_instance

/-! ### Hex digits: rendering and reading back -/

theorem hexDigit?_hexChar {d : Nat} (h : d < 16) : hexDigit? (hexChar d) = some d := by
  interval_cases d <;> decide

theorem hexChar_ne_plus {d : Nat} (h : d < 16) : hexChar d ≠ '+' := by
  interval_cases d <;> decide

theorem hexChar_ne_dash {d : Nat} (h : d < 16) : hexChar d ≠ '-' := by
  interval_cases d <;> decide

theorem hexValFrom_cons (acc : Nat) (c : Char) (cs : List Char) :
    hexValFrom acc (c :: cs) = hexValFrom (acc * 16 + dVal c) cs := rfl

theorem le_hexValFrom (cs : List Char) : ∀ acc, acc ≤ hexValFrom acc cs := by
  induction cs with
  | nil => intro acc; exact Nat.le_refl acc
  | cons c rest ih =>
    intro acc
    rw [hexValFrom_cons]
    exact le_trans (by omega) (ih (acc * 16 + dVal c))

theorem fromHexLoop_ok (ovf : ParseIntError) (mx : Nat) (cs : List Char) :
    ∀ acc, (∀ c ∈ cs, (hexDigit? c).isSome) → hexValFrom acc cs ≤ mx →
      fromHexLoop ovf mx acc cs = .ok (hexValFrom acc cs) := by
  induction cs with
  | nil => intro acc _ _; rfl
  | cons c rest ih =>
    intro acc hdig hle
    obtain ⟨d, hd⟩ := Option.isSome_iff_exists.mp (hdig c (List.mem_cons_self c rest))
    have hdv : dVal c = d := by rw [dVal, hd]; rfl
    rw [hexValFrom_cons, hdv] at hle ⊢
    have hbound : acc * 16 + d ≤ mx :=
      le_trans (le_hexValFrom rest (acc * 16 + d)) hle
    simp only [fromHexLoop, hd]
    rw [if_neg (by omega)]
    exact ih _ (fun c' hc' => hdig c' (List.mem_cons_of_mem _ hc')) hle

theorem byteHex_digits (n : Nat) : ∀ c ∈ byteHex n, ∃ d, d < 16 ∧ c = hexChar d := by
  intro c hc
  simp only [byteHex, List.mem_cons, List.not_mem_nil, or_false] at hc
  rcases hc with rfl | rfl
  · exact ⟨n / 16 % 16, Nat.mod_lt _ (by omega), rfl⟩
  · exact ⟨n % 16, Nat.mod_lt _ (by omega), rfl⟩

theorem u8FromHex_byteHex {n : Nat} (h : n ≤ 255) : u8FromHex (byteHex n) = .ok n := by
  have h1 : n / 16 % 16 = n / 16 := Nat.mod_eq_of_lt (by omega)
  have hhi : n / 16 < 16 := by omega
  have hlo : n % 16 < 16 := Nat.mod_lt _ (by omega)
  have hv : hexValFrom 0 [hexChar (n / 16), hexChar (n % 16)] = n := by
    simp [hexValFrom, dVal, hexDigit?_hexChar hhi, hexDigit?_hexChar hlo]
    omega
  have hdigs : ∀ c ∈ [hexChar (n / 16), hexChar (n % 16)], (hexDigit? c).isSome := by
    intro c hc
    simp only [List.mem_cons, List.not_mem_nil, or_false] at hc
    rcases hc with rfl | rfl
    · rw [hexDigit?_hexChar hhi]; rfl
    · rw [hexDigit?_hexChar hlo]; rfl
  simp only [byteHex, h1]
  simp only [u8FromHex]
  rw [if_neg (not_or.mpr ⟨hexChar_ne_plus hhi, hexChar_ne_dash hhi⟩)]
  rw [fromHexLoop_ok _ _ _ 0 hdigs (by rw [hv]; exact h), hv]

theorem natHexAux_digits : ∀ fuel n : Nat, ∀ c ∈ natHexAux fuel n, ∃ d, d < 16 ∧ c = hexChar d := by
  intro fuel
  induction fuel with
  | zero => intro n c hc; simp [natHexAux] at hc
  | succ fuel ih =>
    intro n c hc
    by_cases hn : n = 0
    · simp [natHexAux, hn] at hc
    · simp only [natHexAux, if_neg hn, List.mem_append, List.mem_cons,
        List.not_mem_nil, or_false] at hc
      rcases hc with hc | rfl
      · exact ih _ c hc
      · exact ⟨n % 16, Nat.mod_lt _ (by omega), rfl⟩

theorem natHexAux_val : ∀ fuel n : Nat, n < 16 ^ fuel →
    hexValFrom 0 (natHexAux fuel n) = n := by
  intro fuel
  induction fuel with
  | zero => intro n hn; interval_cases n; rfl
  | succ fuel ih =>
    intro n hn
    by_cases h0 : n = 0
    · subst h0; simp [natHexAux, hexValFrom]
    · have hdiv : n / 16 < 16 ^ fuel := by
        rw [Nat.div_lt_iff_lt_mul (by omega)]
        calc n < 16 ^ (fuel + 1) := hn
        _ = 16 ^ fuel * 16 := by rw [pow_succ]
      have hmod : n % 16 < 16 := Nat.mod_lt _ (by omega)
      simp only [natHexAux, if_neg h0, hexValFrom, List.foldl_append, List.foldl_cons,
        List.foldl_nil]
      have hd : dVal (hexChar (n % 16)) = n % 16 := by
        rw [dVal, hexDigit?_hexChar hmod]; rfl
      rw [hd]
      have := ih (n / 16) hdiv
      rw [hexValFrom] at this
      rw [this]
      omega

theorem natHexAux_ne_nil : ∀ fuel n : Nat, n ≠ 0 → n < 16 ^ fuel → natHexAux fuel n ≠ [] := by
  intro fuel
  cases fuel with
  | zero => intro n h0 hn; omega
  | succ fuel =>
    intro n h0 _
    simp only [natHexAux, if_neg h0]
    simp

theorem natHex_digits (n : Nat) : ∀ c ∈ natHex n, ∃ d, d < 16 ∧ c = hexChar d := by
  intro c hc
  by_cases h0 : n = 0
  · simp only [natHex, if_pos h0, List.mem_cons, List.not_mem_nil, or_false] at hc
    exact ⟨0, by omega, by rw [hc]; decide⟩
  · simp only [natHex, if_neg h0] at hc
    exact natHexAux_digits 16 n c hc

theorem natHex_val {n : Nat} (h : n < 2 ^ 64) : hexValFrom 0 (natHex n) = n := by
  by_cases h0 : n = 0
  · subst h0; decide
  · rw [natHex, if_neg h0]
    exact natHexAux_val 16 n (by norm_num at h ⊢; exact h)

theorem natHex_ne_nil {n : Nat} (h : n < 2 ^ 64) : natHex n ≠ [] := by
  by_cases h0 : n = 0
  · simp [natHex, h0]
  · rw [natHex, if_neg h0]
    exact natHexAux_ne_nil 16 n h0 (by norm_num at h ⊢; exact h)

/-! ### The seed rendering parses back -/

theorem seedHex_digits (s : Int) : ∀ c ∈ seedHex s, ∃ d, d < 16 ∧ c = hexChar d := by
  intro c hc
  simp only [seedHex, List.mem_append] at hc
  rcases hc with hc | hc
  · have hc0 : c = '0' := List.eq_of_mem_replicate hc
    exact ⟨0, by omega, by rw [hc0]; decide⟩
  · exact natHex_digits _ c hc

theorem emod_two_pow_lt (s : Int) : (s.emod (2 ^ 64)).toNat < 2 ^ 64 := by
  have h1 : s.emod (2 ^ 64) < 2 ^ 64 := Int.emod_lt_of_pos s (by norm_num)
  omega

theorem seedHex_ne_nil (s : Int) : seedHex s ≠ [] := by
  simp only [seedHex]
  intro h
  exact natHex_ne_nil (emod_two_pow_lt s) (List.append_eq_nil.mp h).2

theorem seedHex_noDash (s : Int) : '-' ∉ seedHex s := by
  intro hc
  obtain ⟨d, hd, he⟩ := seedHex_digits s '-' hc
  exact hexChar_ne_dash hd he.symm

theorem hexValFrom_replicate_zero (k : Nat) (ds : List Char) :
    hexValFrom 0 (List.replicate k '0' ++ ds) = hexValFrom 0 ds := by
  induction k with
  | zero => rfl
  | succ k ih =>
    rw [List.replicate_succ, List.cons_append, hexValFrom_cons]
    have hz : 0 * 16 + dVal '0' = 0 := by decide
    rw [hz]
    exact ih

theorem i64FromHex_digits_ok (cs : List Char) (hne : cs ≠ [])
    (hdig : ∀ c ∈ cs, ∃ d, d < 16 ∧ c = hexChar d)
    (hle : hexValFrom 0 cs ≤ 2 ^ 63 - 1) :
    i64FromHex cs = .ok (Int.ofNat (hexValFrom 0 cs)) := by
  match cs, hne with
  | c :: rest, _ =>
    obtain ⟨d, hd, rfl⟩ := hdig c (List.mem_cons_self _ _)
    simp only [i64FromHex]
    rw [if_neg (not_or.mpr ⟨hexChar_ne_plus hd, hexChar_ne_dash hd⟩)]
    rw [fromHexLoop_ok _ _ _ 0 ?digits hle]
    · rfl
    case digits =>
      intro c' hc'
      obtain ⟨d', hd', rfl⟩ := hdig c' hc'
      rw [hexDigit?_hexChar hd']; rfl

theorem seedHex_parse {s : Int} (h0 : 0 ≤ s) (h1 : s < 2 ^ 63) :
    i64FromHex (seedHex s) = .ok s := by
  have hlt : s < 2 ^ 64 := lt_trans h1 (by norm_num)
  have hu : s.emod (2 ^ 64) = s := Int.emod_eq_of_lt h0 hlt
  have htn : (s.toNat : Int) = s := Int.toNat_of_nonneg h0
  have htlt : s.toNat < 2 ^ 63 := by
    have : (s.toNat : Int) < 2 ^ 63 := by rw [htn]; exact h1
    exact_mod_cast this
  have hval : hexValFrom 0 (seedHex s) = s.toNat := by
    simp only [seedHex, hexValFrom_replicate_zero, hu]
    exact natHex_val (by omega)
  rw [i64FromHex_digits_ok _ (seedHex_ne_nil s) (seedHex_digits s) (by omega), hval]
  congr 1

/-! ### Splitting and joining on dashes -/

theorem splitDash_ne_nil (cs : List Char) : splitDash cs ≠ [] := by
  induction cs with
  | nil => simp [splitDash]
  | cons c rest ih =>
    by_cases hc : c = '-'
    · simp [splitDash, hc]
    · simp only [splitDash, if_neg hc]
      cases h : splitDash rest with
      | nil => simp
      | cons f fs => simp

theorem splitDash_noDash (cs : List Char) (h : '-' ∉ cs) : splitDash cs = [cs] := by
  induction cs with
  | nil => rfl
  | cons c rest ih =>
    have hc : c ≠ '-' := fun e => h (e ▸ List.mem_cons_self c rest)
    have hr : '-' ∉ rest := fun e => h (List.mem_cons_of_mem _ e)
    simp only [splitDash, if_neg hc, ih hr]

theorem splitDash_append (f : List Char) (ys : List Char) (hf : '-' ∉ f) :
    splitDash (f ++ '-' :: ys) = f :: splitDash ys := by
  induction f with
  | nil => simp [splitDash]
  | cons c rest ih =>
    have hc : c ≠ '-' := fun e => hf (e ▸ List.mem_cons_self c rest)
    have hr : '-' ∉ rest := fun e => hf (List.mem_cons_of_mem _ e)
    simp only [List.cons_append, splitDash, if_neg hc, List.append_eq, ih hr]

theorem dashed_concat (A : List (List Char)) (b : List Char) :
    dashed (A ++ [b]) = dashed A ++ ('-' :: b) := by
  induction A with
  | nil => simp [dashed]
  | cons f rest ih => simp [dashed, ih]

theorem joinDash_cons (frags : List (List Char)) :
    ∀ f, joinDash (f :: frags) = f ++ dashed frags := by
  induction frags with
  | nil => intro f; simp [joinDash, dashed]
  | cons g rest ih =>
    intro f
    simp only [joinDash]
    rw [ih g]
    simp [dashed]

theorem splitDash_dashed (frags : List (List Char)) :
    ∀ f, '-' ∉ f → (∀ g ∈ frags, '-' ∉ g) →
      splitDash (f ++ dashed frags) = f :: frags := by
  induction frags with
  | nil =>
    intro f hf _
    simp only [dashed, List.append_nil]
    exact splitDash_noDash f hf
  | cons g rest ih =>
    intro f hf hfr
    have hstep : f ++ dashed (g :: rest) = f ++ '-' :: (g ++ dashed rest) := by
      simp [dashed]
    rw [hstep, splitDash_append f _ hf,
      ih g (hfr g (List.mem_cons_self g rest)) (fun q hq => hfr q (List.mem_cons_of_mem _ hq))]

/-! ### Fragment renderings: shapes and read-back -/

theorem byteHex_noDash (n : Nat) : '-' ∉ byteHex n := by
  intro hc
  obtain ⟨d, hd, he⟩ := byteHex_digits n '-' hc
  exact hexChar_ne_dash hd he.symm

theorem pairHex_noDash (p : Pair Nat) : '-' ∉ pairHex p := by
  intro hc
  rcases List.mem_append.mp hc with h | h
  · exact byteHex_noDash _ h
  · exact byteHex_noDash _ h

theorem pairBlockHex_noDash (p : Pair Block) : '-' ∉ pairBlockHex p := by
  intro hc
  rcases List.mem_append.mp hc with h | h <;> rcases List.mem_append.mp h with h' | h'
  · rcases List.mem_append.mp h' with h2 | h2
    · exact byteHex_noDash _ h2
    · exact byteHex_noDash _ h2
  · exact byteHex_noDash _ h'
  · rcases List.mem_append.mp h' with h2 | h2
    · exact byteHex_noDash _ h2
    · exact byteHex_noDash _ h2
  · exact byteHex_noDash _ h'

theorem parsePairFrag_pairHex {p : Pair Nat} (h : PairWF p) :
    parsePairFrag (pairHex p) = .ok p := by
  obtain ⟨hl, hr⟩ := h
  have e0 : sub2 (pairHex p) 0 = byteHex p.left := rfl
  have e2 : sub2 (pairHex p) 2 = byteHex p.right := rfl
  simp only [parsePairFrag]
  rw [if_pos (show (pairHex p).length = 4 from rfl)]
  rw [e0, e2, u8FromHex_byteHex hl, u8FromHex_byteHex hr]
  rfl

theorem parsePairFrags_map {l : List (Pair Nat)} (h : ∀ p ∈ l, PairWF p) :
    parsePairFrags (l.map pairHex) = .ok l := by
  induction l with
  | nil => rfl
  | cons p rest ih =>
    simp only [List.map_cons, parsePairFrags,
      parsePairFrag_pairHex (h p (List.mem_cons_self p rest)),
      ih (fun q hq => h q (List.mem_cons_of_mem _ hq))]

theorem parseBlockFrag_hex {p : Pair Block} (hwf : BlockWF p.left ∧ BlockWF p.right) :
    parseBlockFrag (pairBlockHex p) = .ok p := by
  obtain ⟨⟨ha1, hb1, hc1⟩, ⟨ha2, hb2, hc2⟩⟩ := hwf
  have e0 : sub2 (pairBlockHex p) 0 = byteHex p.left.a := rfl
  have e2 : sub2 (pairBlockHex p) 2 = byteHex p.left.b := rfl
  have e4 : sub2 (pairBlockHex p) 4 = byteHex p.left.c := rfl
  have e6 : sub2 (pairBlockHex p) 6 = byteHex p.right.a := rfl
  have e8 : sub2 (pairBlockHex p) 8 = byteHex p.right.b := rfl
  have e10 : sub2 (pairBlockHex p) 10 = byteHex p.right.c := rfl
  simp only [parseBlockFrag]
  rw [if_pos (show (pairBlockHex p).length = 12 from rfl)]
  rw [e0, e2, e4, e6, e8, e10, u8FromHex_byteHex ha1, u8FromHex_byteHex hb1,
    u8FromHex_byteHex hc1, u8FromHex_byteHex ha2, u8FromHex_byteHex hb2,
    u8FromHex_byteHex hc2]
  rfl

theorem parseBlockFrags_map {l : List (Pair Block)} (h : ∀ p ∈ l, BlockWF p.left ∧ BlockWF p.right) :
    parseBlockFrags (l.map pairBlockHex) = .ok l := by
  induction l with
  | nil => rfl
  | cons p rest ih =>
    simp only [List.map_cons, parseBlockFrags,
      parseBlockFrag_hex (h p (List.mem_cons_self p rest)),
      ih (fun q hq => h q (List.mem_cons_of_mem _ hq))]

/-! ### Checksum accumulator bounds -/

theorem accAdd_le {a b : Nat} (ha : a ≤ 255) (hb : b ≤ 255) : accAdd a b ≤ 255 := by
  have hm : (a + b) % 65536 = a + b := Nat.mod_eq_of_lt (by omega)
  simp only [accAdd, hm]
  split <;> omega

theorem csStep_le {st : Nat × Nat} {b : Nat} (h1 : st.1 ≤ 255) (h2 : st.2 ≤ 255)
    (hb : b ≤ 255) : (csStep st b).1 ≤ 255 ∧ (csStep st b).2 ≤ 255 :=
  ⟨accAdd_le h1 (accAdd_le h2 hb), accAdd_le h2 hb⟩

theorem foldl_csStep_le (bytes : List Nat) :
    ∀ st : Nat × Nat, st.1 ≤ 255 → st.2 ≤ 255 → (∀ b ∈ bytes, b ≤ 255) →
      (bytes.foldl csStep st).1 ≤ 255 ∧ (bytes.foldl csStep st).2 ≤ 255 := by
  induction bytes with
  | nil => intro st h1 h2 _; exact ⟨h1, h2⟩
  | cons b rest ih =>
    intro st h1 h2 hb
    rw [List.foldl_cons]
    obtain ⟨hl, hr⟩ := csStep_le h1 h2 (hb b (List.mem_cons_self _ _))
    exact ih _ hl hr (fun x hx => hb x (List.mem_cons_of_mem _ hx))

theorem seedBeBytes_le (seed : Int) : ∀ b ∈ seedBeBytes seed, b ≤ 255 := by
  intro b hb
  simp only [seedBeBytes, List.mem_cons, List.not_mem_nil, or_false] at hb
  rcases hb with rfl | rfl | rfl | rfl | rfl | rfl | rfl | rfl <;> omega

theorem pairBytes_le {pairs : List (Pair Nat)} (h : ∀ p ∈ pairs, PairWF p) :
    ∀ b ∈ pairBytes pairs, b ≤ 255 := by
  induction pairs with
  | nil => intro b hb; simp [pairBytes] at hb
  | cons p rest ih =>
    intro b hb
    simp only [pairBytes, List.mem_cons] at hb
    obtain ⟨hl, hr⟩ := h p (List.mem_cons_self _ _)
    rcases hb with rfl | rfl | hb
    · exact hl
    · exact hr
    · exact ih (fun q hq => h q (List.mem_cons_of_mem _ hq)) b hb

theorem csFold_le (seed : Int) {pairs : List (Pair Nat)} (h : ∀ p ∈ pairs, PairWF p) :
    (csFold seed pairs).1 ≤ 255 ∧ (csFold seed pairs).2 ≤ 255 := by
  simp only [csFold]
  apply foldl_csStep_le _ _ (by norm_num) (by norm_num)
  intro b hb
  rcases List.mem_append.mp hb with hb | hb
  · exact seedBeBytes_le seed b hb
  · exact pairBytes_le h b hb

theorem checksum_ok (seed : Int) {pairs : List (Pair Nat)} (h : ∀ p ∈ pairs, PairWF p) :
    checksum seed pairs = .ok ⟨(csFold seed pairs).1, (csFold seed pairs).2⟩ := by
  obtain ⟨h1, h2⟩ := csFold_le seed h
  simp only [checksum, u16ToU8, if_pos h1, if_pos h2]

/-! ### The derivation primitive: failure and success conditions -/

theorem asr_ofNat (m n : Nat) : asr (m : Int) n = ((m >>> n : Nat) : Int) := rfl

theorem asr_neg {x : Int} (hx : x < 0) (n : Nat) : asr x n < 0 := by
  cases x with
  | ofNat m => exact absurd hx (Int.ofNat_nonneg m).not_lt
  | negSucc m => exact Int.negSucc_lt_zero _

theorem toU8_ok {x : Int} (h0 : 0 ≤ x) (h1 : x ≤ 255) : toU8 x = .ok x.toNat := by
  simp only [toU8, if_pos (And.intro h0 h1)]

theorem produce_error_of_neg {bl : Block} {seed : Int} (h : seed < 0) :
    Block.produce bl seed = .error .invalidInt := by
  have ha := asr_neg h (bl.a % 25)
  simp only [Block.produce, toU8]
  rw [if_neg (by omega)]

theorem shiftRight_le_self (m n : Nat) : m >>> n ≤ m := by
  rw [Nat.shiftRight_eq_div_pow]
  exact Nat.div_le_self _ _

theorem produce_ok_small {bl : Block} {seed : Int} (hc : bl.c ≤ 255)
    (h0 : 0 ≤ seed) (h1 : seed ≤ 255) :
    ∃ v, Block.produce bl seed = .ok v ∧ v ≤ 255 := by
  obtain ⟨m, rfl⟩ := Int.eq_ofNat_of_zero_le h0
  have hm : m ≤ 255 := by exact_mod_cast h1
  have hba : m >>> (bl.a % 25) ≤ 255 := le_trans (shiftRight_le_self _ _) hm
  have hbb : m >>> (bl.b % 3) ≤ 255 := le_trans (shiftRight_le_self _ _) hm
  have ea : toU8 (asr (m : Int) (bl.a % 25)) = .ok (m >>> (bl.a % 25)) := by
    rw [asr_ofNat, toU8_ok (Int.natCast_nonneg _) (by exact_mod_cast hba)]
    simp
  have eb : toU8 (asr (m : Int) (bl.b % 3)) = .ok (m >>> (bl.b % 3)) := by
    rw [asr_ofNat, toU8_ok (Int.natCast_nonneg _) (by exact_mod_cast hbb)]
    simp
  refine ⟨m >>> (bl.a % 25) ^^^ (if bl.a % 2 = 0 then m >>> (bl.b % 3) ||| bl.c
    else m >>> (bl.b % 3) &&& bl.c), by simp only [Block.produce, ea, eb], ?_⟩
  have h256 : (256 : Nat) = 2 ^ 8 := by norm_num
  have hcv : (if bl.a % 2 = 0 then m >>> (bl.b % 3) ||| bl.c
      else m >>> (bl.b % 3) &&& bl.c) < 256 := by
    split
    · rw [h256]; exact Nat.or_lt_two_pow (by omega) (by omega)
    · rw [h256]; exact Nat.and_lt_two_pow _ (by omega)
  have : m >>> (bl.a % 25) ^^^ (if bl.a % 2 = 0 then m >>> (bl.b % 3) ||| bl.c
      else m >>> (bl.b % 3) &&& bl.c) < 256 := by
    rw [h256]; exact Nat.xor_lt_two_pow (by omega) (by rw [← h256]; exact hcv)
  omega

theorem pairProduce_ok_small {g : Pair Block} {seed : Int}
    (hwf : BlockWF g.left ∧ BlockWF g.right) (h0 : 0 ≤ seed) (h1 : seed ≤ 255) :
    ∃ p, Pair.produce g seed = .ok p ∧ PairWF p := by
  obtain ⟨vl, hvl, hvl2⟩ := produce_ok_small hwf.1.2.2 h0 h1
  obtain ⟨vr, hvr, hvr2⟩ := produce_ok_small hwf.2.2.2 h0 h1
  exact ⟨⟨vl, vr⟩, by simp only [Pair.produce, hvl, hvr], ⟨hvl2, hvr2⟩⟩

theorem producePairs_ok_small {gs : List (Pair Block)} {seed : Int}
    (hwf : ∀ g ∈ gs, BlockWF g.left ∧ BlockWF g.right) (h0 : 0 ≤ seed) (h1 : seed ≤ 255) :
    ∃ ps, producePairs gs seed = .ok ps ∧ ∀ p ∈ ps, PairWF p := by
  induction gs with
  | nil => exact ⟨[], rfl, by simp⟩
  | cons g rest ih =>
    obtain ⟨p, hp, hpwf⟩ := pairProduce_ok_small (hwf g (List.mem_cons_self _ _)) h0 h1
    obtain ⟨ps, hps, hpswf⟩ := ih (fun q hq => hwf q (List.mem_cons_of_mem _ hq))
    refine ⟨p :: ps, ?_, ?_⟩
    · simp only [producePairs, hp, hps]
    · intro q hq
      rcases List.mem_cons.mp hq with rfl | hq
      · exact hpwf
      · exact hpswf q hq

theorem producePairs_error_of_neg {gs : List (Pair Block)} {seed : Int}
    (h : seed < 0) (hne : gs ≠ []) : producePairs gs seed = .error .invalidInt := by
  match gs, hne with
  | g :: rest, _ =>
    have hl : g.left.produce seed = .error .invalidInt := produce_error_of_neg h
    simp only [producePairs, Pair.produce, hl]

/-! ### Key creation characterized -/

theorem create_eq_ok {seed : Int} {secret : Secret} {k : Key}
    (h : Key.create seed secret = .ok k) :
    ∃ ps chk, producePairs secret.pairs seed = .ok ps ∧ checksum seed ps = .ok chk ∧
      k = ⟨seed, ps, chk⟩ := by
  cases hp : producePairs secret.pairs seed with
  | error e => simp [Key.create, createKey, hp] at h
  | ok ps =>
    cases hcs : checksum seed ps with
    | error e => simp [Key.create, createKey, hp, hcs] at h
    | ok chk =>
      refine ⟨ps, chk, rfl, hcs, ?_⟩
      simp only [Key.create, createKey, hp, hcs, Except.ok.injEq] at h
      exact h.symm

theorem create_ok_intro {seed : Int} {secret : Secret} {ps : List (Pair Nat)}
    {chk : Pair Nat} (hp : producePairs secret.pairs seed = .ok ps)
    (hcs : checksum seed ps = .ok chk) :
    Key.create seed secret = .ok ⟨seed, ps, chk⟩ := by
  simp only [Key.create, createKey, hp, hcs]

/-! ### Shapes of fragment-parsing results -/

theorem wrapPIE_error {x : Except ParseIntError Nat} {e : LibError}
    (h : wrapPIE x = .error e) : ∃ pe, e = .invalidFormat pe := by
  cases x with
  | ok v => simp [wrapPIE] at h
  | error pe =>
    simp only [wrapPIE, Except.error.injEq] at h
    exact ⟨pe, h.symm⟩

theorem parsePairFrag_error_shape {f : List Char} {e : LibError}
    (h : parsePairFrag f = .error e) :
    e = .invalidFragment ∨ ∃ pe, e = .invalidFormat pe := by
  simp only [parsePairFrag] at h
  split at h
  · split at h
    · next heq =>
      injection h with h2
      exact Or.inr (h2 ▸ wrapPIE_error heq)
    · split at h
      · next heq =>
        injection h with h2
        exact Or.inr (h2 ▸ wrapPIE_error heq)
      · exact Except.noConfusion h
  · injection h with h2
    exact Or.inl h2.symm

theorem parsePairFrags_error_shape {frags : List (List Char)} :
    ∀ {e : LibError}, parsePairFrags frags = .error e →
      e = .invalidFragment ∨ ∃ pe, e = .invalidFormat pe := by
  induction frags with
  | nil => intro e h; simp [parsePairFrags] at h
  | cons f rest ih =>
    intro e h
    simp only [parsePairFrags] at h
    split at h
    · next heq =>
      injection h with h2
      exact h2 ▸ parsePairFrag_error_shape heq
    · split at h
      · next heq =>
        injection h with h2
        exact h2 ▸ ih heq
      · exact Except.noConfusion h

theorem parsePairFrags_length {frags : List (List Char)} :
    ∀ {ps}, parsePairFrags frags = .ok ps → ps.length = frags.length := by
  induction frags with
  | nil =>
    intro ps h
    simp only [parsePairFrags, Except.ok.injEq] at h
    rw [← h]
    rfl
  | cons f rest ih =>
    intro ps h
    cases hf : parsePairFrag f with
    | error e =>
      simp only [parsePairFrags, hf] at h
      exact Except.noConfusion h
    | ok p =>
      cases hr : parsePairFrags rest with
      | error e =>
        simp only [parsePairFrags, hf, hr] at h
        exact Except.noConfusion h
      | ok qs =>
        simp only [parsePairFrags, hf, hr, Except.ok.injEq] at h
        rw [← h]
        simp [ih hr]

/-! ### The specification-level view of fragment parsing -/

theorem fragError_none {f : List Char} (h : fragError f = none) :
    parsePairFrag f = .ok (pairOfFrag f) := by
  simp only [fragError] at h
  split at h
  · exact Option.noConfusion h
  · next hl =>
    split at h
    · exact Option.noConfusion h
    · next v0 heq0 =>
      split at h
      · exact Option.noConfusion h
      · next v2 heq2 =>
        simp only [parsePairFrag, if_pos (show f.length = 4 by omega), heq0, heq2, wrapPIE,
          pairOfFrag, Except.toOption]
        simp [heq0, heq2, Except.toOption]

theorem fragError_some {f : List Char} {e : LibError} (h : fragError f = some e) :
    parsePairFrag f = .error e := by
  simp only [fragError] at h
  split at h
  · next hl =>
    injection h with h2
    simp only [parsePairFrag, if_neg (show ¬f.length = 4 by omega)]
    rw [h2]
  · next hl =>
    split at h
    · next e0 heq0 =>
      injection h with h2
      simp only [parsePairFrag, if_pos (show f.length = 4 by omega), heq0, wrapPIE]
      rw [← h2]
    · next v0 heq0 =>
      split at h
      · next e2 heq2 =>
        injection h with h2
        simp only [parsePairFrag, if_pos (show f.length = 4 by omega), heq0, heq2, wrapPIE]
        rw [← h2]
      · exact Option.noConfusion h

theorem firstPairError_none {frags : List (List Char)} (h : firstPairError frags = none) :
    parsePairFrags frags = .ok (frags.map pairOfFrag) := by
  induction frags with
  | nil => rfl
  | cons f rest ih =>
    simp only [firstPairError] at h
    split at h
    · exact Option.noConfusion h
    · next heq =>
      simp only [parsePairFrags, fragError_none heq, ih h, List.map_cons]

theorem firstPairError_some {frags : List (List Char)} :
    ∀ {e : LibError}, firstPairError frags = some e → parsePairFrags frags = .error e := by
  induction frags with
  | nil => intro e h; exact Option.noConfusion h
  | cons f rest ih =>
    intro e h
    simp only [firstPairError] at h
    split at h
    · next e1 heq =>
      injection h with h2
      simp only [parsePairFrags, fragError_some (h2 ▸ heq)]
    · next heq =>
      cases hf : parsePairFrag f with
      | error e0 =>
        have hok := fragError_none heq
        rw [hf] at hok
        exact Except.noConfusion hok
      | ok p =>
        simp only [parsePairFrags, hf, ih h]

theorem fromStr_eq_spec (cs : List Char) : Key.fromStr cs = keySpecParse cs := by
  by_cases hlen : (splitDash cs).length < 3
  · simp only [Key.fromStr, keySpecParse, if_pos hlen]
  · cases hitems : splitDash cs with
    | nil => exact absurd hitems (splitDash_ne_nil cs)
    | cons seedItem tail =>
      cases hseed : i64FromHex seedItem with
      | error e =>
        simp only [Key.fromStr, keySpecParse, if_neg hlen, hitems, hseed]
      | ok seed =>
        cases hfe : firstPairError tail with
        | some e =>
          simp only [Key.fromStr, keySpecParse, if_neg hlen, hitems, hseed,
            firstPairError_some hfe, hfe]
        | none =>
          simp only [Key.fromStr, keySpecParse, if_neg hlen, hitems, hseed,
            firstPairError_none hfe, hfe]

/-! ### The Key parser never aborts and always keeps a data pair -/

theorem exists_getLast?_of_ne_nil {α : Type} {l : List α} (h : l ≠ []) :
    ∃ a, l.getLast? = some a :=
  Option.isSome_iff_exists.mp (List.getLast?_isSome.mpr h)

theorem fromStr_shape (cs : List Char) :
    Key.fromStr cs ≠ none ∧
    (Key.fromStr cs = some (.error .notEnoughItems) ↔ (splitDash cs).length < 3) ∧
    ∀ k, Key.fromStr cs = some (.ok k) → 1 ≤ k.pairs.length := by
  by_cases hlen : (splitDash cs).length < 3
  · have he : Key.fromStr cs = some (.error .notEnoughItems) := by
      simp only [Key.fromStr, if_pos hlen]
    refine ⟨by simp [he], ⟨fun _ => hlen, fun _ => he⟩, ?_⟩
    intro k hk
    rw [he] at hk
    simp at hk
  · cases hitems : splitDash cs with
    | nil => exact absurd hitems (splitDash_ne_nil cs)
    | cons seedItem tail =>
      have hlen2 : 2 ≤ tail.length := by
        rw [hitems] at hlen
        simp only [List.length_cons] at hlen
        omega
      have hlen' : ¬(seedItem :: tail).length < 3 := by
        rw [← hitems]
        exact hlen
      cases hseed : i64FromHex seedItem with
      | error e =>
        have he : Key.fromStr cs = some (.error (.invalidFormat e)) := by
          simp only [Key.fromStr, hitems, hseed]
          rw [if_neg hlen']
        refine ⟨by simp [he], ⟨?_, fun hcon => absurd hcon hlen'⟩, ?_⟩
        · intro hne
          rw [he] at hne
          simp at hne
        · intro k hk
          rw [he] at hk
          simp at hk
      | ok seed =>
        cases hps : parsePairFrags tail with
        | error e =>
          have he : Key.fromStr cs = some (.error e) := by
            simp only [Key.fromStr, hitems, hseed, hps]
            rw [if_neg hlen']
          refine ⟨by simp [he], ⟨?_, fun hcon => absurd hcon hlen'⟩, ?_⟩
          · intro hne
            rw [he] at hne
            simp only [Option.some.injEq, Except.error.injEq] at hne
            rcases parsePairFrags_error_shape hps with h1 | ⟨pe, h1⟩ <;> rw [hne] at h1 <;>
              exact LibError.noConfusion h1
          · intro k hk
            rw [he] at hk
            simp at hk
        | ok ps =>
          have hlen3 : 2 ≤ ps.length := by rw [parsePairFrags_length hps]; exact hlen2
          have hne2 : ps ≠ [] := by
            intro h0
            rw [h0] at hlen3
            simp at hlen3
          obtain ⟨chk, hchk⟩ := exists_getLast?_of_ne_nil hne2
          have he : Key.fromStr cs = some (.ok ⟨seed, ps.dropLast, chk⟩) := by
            simp only [Key.fromStr, hitems, hseed, hps, hchk]
            rw [if_neg hlen']
          refine ⟨by simp [he], ⟨?_, fun hcon => absurd hcon hlen'⟩, ?_⟩
          · intro hne
            rw [he] at hne
            simp at hne
          · intro k hk
            rw [he] at hk
            simp only [Option.some.injEq, Except.ok.injEq] at hk
            rw [← hk]
            simp only [List.length_dropLast]
            omega

/-! ### Round trips of the two textual codecs -/

theorem key_format_splits (k : Key) :
    splitDash (Key.format k) =
      seedHex k.seed :: (k.pairs.map pairHex ++ [pairHex k.checksum]) := by
  have h1 : Key.format k =
      seedHex k.seed ++ dashed (k.pairs.map pairHex ++ [pairHex k.checksum]) := by
    simp only [Key.format, dashed_concat, List.append_assoc]
  rw [h1]
  apply splitDash_dashed _ _ (seedHex_noDash k.seed)
  intro g hg
  rcases List.mem_append.mp hg with hg | hg
  · obtain ⟨p, _, rfl⟩ := List.mem_map.mp hg
    exact pairHex_noDash p
  · rw [List.mem_singleton.mp hg]
    exact pairHex_noDash k.checksum

theorem key_parse_format {k : Key} (hWF : KeyWF k) (h0 : 0 ≤ k.seed)
    (h1 : k.seed < 2 ^ 63) (hne : k.pairs ≠ []) :
    Key.fromStr (Key.format k) = some (.ok k) := by
  obtain ⟨hpwf, hcwf⟩ := hWF
  have hsplit := key_format_splits k
  have hlen : ¬(seedHex k.seed :: (k.pairs.map pairHex ++ [pairHex k.checksum])).length < 3 := by
    simp only [List.length_cons, List.length_append, List.length_map, List.length_singleton]
    have hp1 : 0 < k.pairs.length := List.length_pos.mpr hne
    omega
  have hfr : parsePairFrags (k.pairs.map pairHex ++ [pairHex k.checksum]) =
      .ok (k.pairs ++ [k.checksum]) := by
    have hmap : (k.pairs ++ [k.checksum]).map pairHex =
        k.pairs.map pairHex ++ [pairHex k.checksum] := by simp
    rw [← hmap]
    apply parsePairFrags_map
    intro p hp
    rcases List.mem_append.mp hp with hp | hp
    · exact hpwf p hp
    · rw [List.mem_singleton.mp hp]
      exact hcwf
  have he : Key.fromStr (Key.format k) =
      some (.ok ⟨k.seed, k.pairs, k.checksum⟩) := by
    simp only [Key.fromStr, hsplit, seedHex_parse h0 h1, hfr, List.getLast?_concat,
      List.dropLast_concat]
    rw [if_neg hlen]
  exact he

theorem secret_format_splits {s : Secret} (hne : s.pairs ≠ []) :
    splitDash (Secret.format s) = s.pairs.map pairBlockHex := by
  cases hp : s.pairs with
  | nil => exact absurd hp hne
  | cons p rest =>
    simp only [Secret.format, hp, List.map_cons, joinDash_cons]
    exact splitDash_dashed _ _ (pairBlockHex_noDash p)
      (fun g hg => by
        obtain ⟨q, _, rfl⟩ := List.mem_map.mp hg
        exact pairBlockHex_noDash q)

theorem secret_parse_format {s : Secret} (hWF : SecretWF s) (hne : s.pairs ≠ []) :
    Secret.fromStr (Secret.format s) = .ok s := by
  simp only [Secret.fromStr, secret_format_splits hne, parseBlockFrags_map hWF]

/-! ### Claim theorems -/

/-- C1 (amended): Block::produce agrees with the total truncation-based
derivation of the specification exactly when both arithmetically shifted
copies of the seed already lie in the byte range 0..=255; outside that range
it returns the InvalidInt narrowing error instead of truncating. -/
theorem block_produce_characterization (bl : Block) (seed : Int) :
    (Block.produce bl seed = .ok (Block.produceSpec bl seed) ↔
      (0 ≤ asr seed (bl.a % 25) ∧ asr seed (bl.a % 25) ≤ 255 ∧
       0 ≤ asr seed (bl.b % 3) ∧ asr seed (bl.b % 3) ≤ 255)) ∧
    (Block.produce bl seed = .error .invalidInt ↔
      ¬(0 ≤ asr seed (bl.a % 25) ∧ asr seed (bl.a % 25) ≤ 255 ∧
        0 ≤ asr seed (bl.b % 3) ∧ asr seed (bl.b % 3) ≤ 255)) := by
  by_cases hA : 0 ≤ asr seed (bl.a % 25) ∧ asr seed (bl.a % 25) ≤ 255
  · by_cases hB : 0 ≤ asr seed (bl.b % 3) ∧ asr seed (bl.b % 3) ≤ 255
    · have hok : Block.produce bl seed = .ok (Block.produceSpec bl seed) := by
        have hma : (asr seed (bl.a % 25)).emod 256 = asr seed (bl.a % 25) :=
          Int.emod_eq_of_lt hA.1 (by omega)
        have hmb : (asr seed (bl.b % 3)).emod 256 = asr seed (bl.b % 3) :=
          Int.emod_eq_of_lt hB.1 (by omega)
        simp only [Block.produce, toU8_ok hA.1 hA.2, toU8_ok hB.1 hB.2,
          Block.produceSpec, hma, hmb]
      refine ⟨⟨fun _ => ⟨hA.1, hA.2, hB.1, hB.2⟩, fun _ => hok⟩, ?_, ?_⟩
      · intro he
        rw [hok] at he
        exact Except.noConfusion he
      · intro hcon
        exact absurd ⟨hA.1, hA.2, hB.1, hB.2⟩ hcon
    · have herr : Block.produce bl seed = .error .invalidInt := by
        have heb : toU8 (asr seed (bl.b % 3)) = .error .invalidInt := by
          simp only [toU8, if_neg hB]
        simp only [Block.produce, toU8_ok hA.1 hA.2, heb]
      refine ⟨⟨?_, ?_⟩, fun _ => fun hcon => hB ⟨hcon.2.2.1, hcon.2.2.2⟩, fun _ => herr⟩
      · intro h
        rw [herr] at h
        exact Except.noConfusion h
      · intro hcon
        exact absurd ⟨hcon.2.2.1, hcon.2.2.2⟩ hB
  · have herr : Block.produce bl seed = .error .invalidInt := by
      simp only [Block.produce, toU8, if_neg hA]
    refine ⟨⟨?_, ?_⟩, fun _ => fun hcon => hA ⟨hcon.1, hcon.2.1⟩, fun _ => herr⟩
    · intro h
      rw [herr] at h
      exact Except.noConfusion h
    · intro hcon
      exact absurd ⟨hcon.1, hcon.2.1⟩ hA

set_option maxRecDepth 8000 in
/-- C1 counterexample: at seed minus one the narrowing fails, so produce is
not the total truncation function the claim describes. -/
theorem block_produce_truncation_counterexample :
    Block.produce ⟨0, 0, 0⟩ (-1) = .error .invalidInt ∧
    Block.produce ⟨0, 0, 0⟩ (-1) ≠ .ok (Block.produceSpec ⟨0, 0, 0⟩ (-1)) := by
  decide

/-- C2 (amended): key derivation succeeds for every byte-valued secret
whenever the seed itself lies in 0..=255, since every shifted copy of such
a seed stays in the byte range. -/
theorem create_ok_of_byte_seed (seed : Int) (secret : Secret) (hWF : SecretWF secret)
    (h0 : 0 ≤ seed) (h1 : seed ≤ 255) : ∃ k, Key.create seed secret = .ok k := by
  obtain ⟨ps, hps, hpswf⟩ := producePairs_ok_small hWF h0 h1
  exact ⟨_, create_ok_intro hps (checksum_ok seed hpswf)⟩

theorem create_ok_of_byte_seed_wit :
    ∃ k, Key.create 200 ⟨[⟨⟨1, 2, 3⟩, ⟨5, 6, 7⟩⟩]⟩ = .ok k :=
  create_ok_of_byte_seed 200 ⟨[⟨⟨1, 2, 3⟩, ⟨5, 6, 7⟩⟩]⟩ (by decide) (by decide) (by decide)

set_option maxRecDepth 8000 in
/-- C2 counterexample: the byte-narrowing error branch is reachable, so
Key::create does fail, already on seed minus one with a one-pair secret. -/
theorem create_neg_counterexample :
    Key.create (-1) ⟨[⟨⟨1, 2, 3⟩, ⟨5, 6, 7⟩⟩]⟩ = .error .invalidInt := by
  decide

set_option maxRecDepth 8000 in
/-- C3: parsing the documented secret, deriving with seed 123 and formatting
the key reproduces the documented key text. -/
theorem worked_example_one :
    ∃ s k, Secret.fromStr ("0A6BBFAA6793-ABB734930FCD".toList) = .ok s ∧
      Key.create 123 s = .ok k ∧ Key.format k = "007B-BFBF-3049-E324".toList := by
  refine ⟨⟨[⟨⟨10, 107, 191⟩, ⟨170, 103, 147⟩⟩, ⟨⟨171, 183, 52⟩, ⟨147, 15, 205⟩⟩]⟩,
    ⟨123, [⟨191, 191⟩, ⟨48, 73⟩], ⟨227, 36⟩⟩, ?_, ?_, ?_⟩ <;> decide

/-- C4: the checksum loop keeps both accumulators within a byte, each update
sums at most 0xFF plus 0xFF before the single conditional subtraction, and
the final narrowing of both accumulators therefore always succeeds. -/
theorem checksum_bounds_and_ok (seed : Int) (pairs : List (Pair Nat))
    (h : ∀ p ∈ pairs, PairWF p) :
    (∀ a b : Nat, a ≤ 255 → b ≤ 255 → a + b ≤ 255 + 255 ∧ accAdd a b ≤ 255) ∧
    (csFold seed pairs).1 ≤ 255 ∧ (csFold seed pairs).2 ≤ 255 ∧
    checksum seed pairs = .ok ⟨(csFold seed pairs).1, (csFold seed pairs).2⟩ := by
  obtain ⟨h1, h2⟩ := csFold_le seed h
  exact ⟨fun a b ha hb => ⟨by omega, accAdd_le ha hb⟩, h1, h2, checksum_ok seed h⟩

theorem checksum_bounds_and_ok_wit :
    (∀ a b : Nat, a ≤ 255 → b ≤ 255 → a + b ≤ 255 + 255 ∧ accAdd a b ≤ 255) ∧
    (csFold 123 [⟨191, 191⟩, ⟨48, 73⟩]).1 ≤ 255 ∧
    (csFold 123 [⟨191, 191⟩, ⟨48, 73⟩]).2 ≤ 255 ∧
    checksum 123 [⟨191, 191⟩, ⟨48, 73⟩] =
      .ok ⟨(csFold 123 [⟨191, 191⟩, ⟨48, 73⟩]).1, (csFold 123 [⟨191, 191⟩, ⟨48, 73⟩]).2⟩ :=
  checksum_bounds_and_ok 123 [⟨191, 191⟩, ⟨48, 73⟩] (by decide)

/-- C5: any key actually produced by Key::create for a seed and secret
passes the validity check against that same secret. -/
theorem create_key_valid (seed : Int) (secret : Secret) (k : Key)
    (h : Key.create seed secret = .ok k) : Key.valid k secret = true := by
  obtain ⟨ps, chk, hps, hchk, rfl⟩ := create_eq_ok h
  simp only [Key.valid]
  rw [create_ok_intro hps hchk]
  simp

set_option maxRecDepth 8000 in
theorem create_key_valid_wit :
    Key.valid ⟨123, [⟨191, 191⟩, ⟨48, 73⟩], ⟨227, 36⟩⟩
      ⟨[⟨⟨10, 107, 191⟩, ⟨170, 103, 147⟩⟩, ⟨⟨171, 183, 52⟩, ⟨147, 15, 205⟩⟩]⟩ = true :=
  create_key_valid 123 ⟨[⟨⟨10, 107, 191⟩, ⟨170, 103, 147⟩⟩, ⟨⟨171, 183, 52⟩, ⟨147, 15, 205⟩⟩]⟩
    ⟨123, [⟨191, 191⟩, ⟨48, 73⟩], ⟨227, 36⟩⟩ (by decide)

/-- C6 (amended): key text round-trips in both directions for every
well-formed key with a nonnegative seed below 2 to the 63 and at least one
data pair; parsing the rendering recovers the key, and rendering any parse
of such a rendering reproduces the text. -/
theorem key_text_roundtrip (k : Key) (hWF : KeyWF k) (h0 : 0 ≤ k.seed)
    (h1 : k.seed < 2 ^ 63) (hne : k.pairs ≠ []) :
    Key.fromStr (Key.format k) = some (.ok k) ∧
    (∀ t, t = Key.format k → ∃ k2, Key.fromStr t = some (.ok k2) ∧ Key.format k2 = t) := by
  have hmain := key_parse_format hWF h0 h1 hne
  exact ⟨hmain, fun t ht => ⟨k, by rw [ht]; exact hmain, ht.symm⟩⟩

set_option maxRecDepth 8000 in
theorem key_text_roundtrip_wit :
    Key.fromStr (Key.format ⟨123, [⟨191, 191⟩, ⟨48, 73⟩], ⟨227, 36⟩⟩) =
      some (.ok ⟨123, [⟨191, 191⟩, ⟨48, 73⟩], ⟨227, 36⟩⟩) :=
  (key_text_roundtrip ⟨123, [⟨191, 191⟩, ⟨48, 73⟩], ⟨227, 36⟩⟩ (by decide) (by decide)
    (by decide) (by decide)).1

set_option maxRecDepth 8000 in
/-- C6 counterexample: a key with seed minus one renders as sixteen hex
digits of the two's-complement value, and parsing that text back fails with
a positive overflow, so the round trip does not hold for negative seeds. -/
theorem key_roundtrip_neg_seed_counterexample :
    Key.fromStr (Key.format ⟨-1, [⟨0, 0⟩], ⟨0, 0⟩⟩) =
      some (.error (.invalidFormat .posOverflow)) := by
  decide

/-- C7 (amended): secret text round-trips in both directions for every
byte-valued secret with at least one pair: parsing the rendering recovers
the secret, and rendering any parse of such a rendering reproduces the
text. -/
theorem secret_text_roundtrip (s : Secret) (hWF : SecretWF s) (hne : s.pairs ≠ []) :
    Secret.fromStr (Secret.format s) = .ok s ∧
    (∀ t, t = Secret.format s → ∃ s2, Secret.fromStr t = .ok s2 ∧ Secret.format s2 = t) := by
  have hmain := secret_parse_format hWF hne
  exact ⟨hmain, fun t ht => ⟨s, by rw [ht]; exact hmain, ht.symm⟩⟩

theorem secret_text_roundtrip_wit :
    Secret.fromStr (Secret.format ⟨[⟨⟨10, 107, 191⟩, ⟨170, 103, 147⟩⟩]⟩) =
      .ok ⟨[⟨⟨10, 107, 191⟩, ⟨170, 103, 147⟩⟩]⟩ :=
  (secret_text_roundtrip ⟨[⟨⟨10, 107, 191⟩, ⟨170, 103, 147⟩⟩]⟩ (by decide) (by decide)).1

/-- C7 counterexample: lowercase secret text parses, but formatting the
parsed secret yields uppercase text, so parse-then-format is not the
identity on all parseable texts. -/
theorem secret_roundtrip_lowercase_counterexample :
    Secret.fromStr ("0a6bbfaa6793".toList) = .ok ⟨[⟨⟨10, 107, 191⟩, ⟨170, 103, 147⟩⟩]⟩ ∧
    Secret.format ⟨[⟨⟨10, 107, 191⟩, ⟨170, 103, 147⟩⟩]⟩ ≠ "0a6bbfaa6793".toList := by
  decide

/-- C8 (amended): Key parsing equals the specification-level parser: fewer
than three dash-separated items fail with NotEnoughItems, and exactly then;
the first item is read as a signed 64-bit hex numeral under standard radix
parsing, its failure wrapped as InvalidFormat; the first offending remaining
fragment decides the error, InvalidFragment for a length other than four,
else InvalidFormat from the first of its two halves that is not a byte
numeral; on success the last pair is the checksum and the rest the data. -/
theorem key_fromStr_eq_specParse (cs : List Char) :
    Key.fromStr cs = keySpecParse cs ∧
    (Key.fromStr cs = some (.error .notEnoughItems) ↔ (splitDash cs).length < 3) :=
  ⟨fromStr_eq_spec cs, (fromStr_shape cs).2.1⟩

/-- C8 counterexample: a fragment containing the non-hex character plus
still parses, because standard radix parsing accepts a leading plus sign,
so the claimed InvalidFormat failure on any non-hex character is wrong. -/
theorem key_fromStr_plus_sign_counterexample :
    Key.fromStr ("0000-+A2B-0000".toList) = some (.ok ⟨0, [⟨10, 43⟩], ⟨0, 0⟩⟩) ∧
    hexDigit? '+' = none ∧ '+' ∈ "+A2B".toList := by
  decide

/-- C9: for every negative seed and every secret with at least one pair,
key derivation fails with the InvalidInt narrowing error, because the
arithmetic shift of a negative seed is negative and cannot narrow to u8. -/
theorem create_neg_seed_error (seed : Int) (secret : Secret) (hneg : seed < 0)
    (hne : secret.pairs ≠ []) : Key.create seed secret = .error .invalidInt := by
  simp only [Key.create, createKey, producePairs_error_of_neg hneg hne]

theorem create_neg_seed_error_wit :
    Key.create (-7) ⟨[⟨⟨0, 0, 0⟩, ⟨0, 0, 0⟩⟩]⟩ = .error .invalidInt :=
  create_neg_seed_error (-7) ⟨[⟨⟨0, 0, 0⟩, ⟨0, 0, 0⟩⟩]⟩ (by decide) (by decide)

/-- C10: the Key parser never reaches the aborting unwrap: whenever at least
three items were split and every fragment parsed, at least two pairs sit in
the vector before the pop, so the parse never aborts and every successfully
parsed key keeps at least one data pair besides its checksum. -/
theorem key_fromStr_no_panic (cs : List Char) :
    Key.fromStr cs ≠ none ∧
    (∀ seedItem tail ps, splitDash cs = seedItem :: tail →
      ¬(splitDash cs).length < 3 → parsePairFrags tail = .ok ps → 2 ≤ ps.length) ∧
    (∀ k, Key.fromStr cs = some (.ok k) → 1 ≤ k.pairs.length) := by
  obtain ⟨hnn, _, hok⟩ := fromStr_shape cs
  refine ⟨hnn, ?_, hok⟩
  intro seedItem tail ps hitems hlen hps
  rw [parsePairFrags_length hps]
  rw [hitems] at hlen
  simp only [List.length_cons] at hlen
  omega

theorem key_fromStr_no_panic_wit :
    Key.fromStr ("0000-1111-2222".toList) ≠ none ∧
    2 ≤ ([⟨17, 17⟩, ⟨34, 34⟩] : List (Pair Nat)).length ∧
    1 ≤ (⟨0, [⟨17, 17⟩], ⟨34, 34⟩⟩ : Key).pairs.length := by
  obtain ⟨h1, h2, h3⟩ := key_fromStr_no_panic ("0000-1111-2222".toList)
  exact ⟨h1, h2 ("0000".toList) ["1111".toList, "2222".toList] [⟨17, 17⟩, ⟨34, 34⟩]
    (by decide) (by decide) (by decide), h3 ⟨0, [⟨17, 17⟩], ⟨34, 34⟩⟩ (by decide)⟩
